import Mathlib

/-!
# Verification of the mvs-udp-server compression codec and wire codec

Shallow embedding of `src/compression.cpp` and `src/serialization.cpp`.
Byte buffers are `List Nat` (each entry a `uint8_t` value); machine
arithmetic that can wrap is made explicit with `% 2^w`.  Fallible C++
code (functions that `throw`) returns `Option`.
-/

namespace Rollback

/-! ## Zero-suppression codec (`src/compression.cpp`)

`compressPacket` processes the input in groups of up to 8 bytes: one mask
byte (bit `i` set iff byte `i` of the group is non-zero) followed by the
non-zero bytes.  The C++ writes into a pre-allocated 1024-byte buffer and
throws on overflow; the embedding returns `none` where the C++ throws and
builds the output list directly (the C++ `resize(outPos)` returns exactly
the bytes written, which is the list built here). -/

/-- Inner loop of `compressPacket`: `for (bit = 0; bit < 8 && inPos < n; ...)`.
The caller passes the group `input.take 8`, so the `bit < 8` bound is the
list length.  Accumulates the mask (`mask |= 1 << bit` for a non-zero byte),
collects the literal bytes, and threads `outPos`, checking `outPos >= 1024`
before each literal write exactly as the C++ does. -/
def compressGroupLoop : List Nat → Nat → Nat → Nat → Option (Nat × List Nat × Nat)
  | [], _bit, mask, outPos => some (mask, [], outPos)
  | v :: rest, bit, mask, outPos =>
    if v ≠ 0 then
      if 1024 ≤ outPos then none
      else
        match compressGroupLoop rest (bit + 1) (mask ||| (1 <<< bit)) (outPos + 1) with
        | none => none
        | some (m, lits, o) => some (m, v :: lits, o)
    else
      compressGroupLoop rest (bit + 1) mask outPos

/-- Outer loop of `compressPacket`: `while (inPos < n)`.  Each iteration
checks `outPos >= 1024` (space for the mask byte), reserves the mask
position, packs up to 8 bytes, and emits the mask followed by the literals. -/
def compressLoop (b : List Nat) (outPos : Nat) : Option (List Nat) :=
  match b with
  | [] => some []
  | x :: xs =>
    if 1024 ≤ outPos then none
    else
      match compressGroupLoop ((x :: xs).take 8) 0 0 (outPos + 1) with
      | none => none
      | some (mask, lits, outPos2) =>
        match compressLoop ((x :: xs).drop 8) outPos2 with
        | none => none
        | some rest => some (mask :: (lits ++ rest))
  termination_by b.length
  decreasing_by simp [List.length_drop]; omega

/-- `compressPacket` from `src/compression.cpp:6-43`.  `none` models the
`throw` on output-buffer overflow. -/
def compressPacket (input : List Nat) : Option (List Nat) :=
  if input.length = 0 then some [] else compressLoop input 0

/-- Inner loop of `decompressPacket`:
`for (bit = 0; bit < 8 && writePos < originalLength; ++bit)`.
Returns the bytes emitted for this group, the remaining compressed data and
the new `writePos`; `none` models the `throw` on a set mask bit with no
remaining literal ("truncated compressed data") and the `writePos >= 1024`
overflow checks. -/
def decompGroup (mask : Nat) (bit : Nat) (rest : List Nat) (writePos original : Nat) :
    Option (List Nat × List Nat × Nat) :=
  if bit < 8 ∧ writePos < original then
    if mask.testBit bit then
      match rest with
      | [] => none
      | v :: rest' =>
        if 1024 ≤ writePos then none
        else
          match decompGroup mask (bit + 1) rest' (writePos + 1) original with
          | none => none
          | some (out, r, w) => some (v :: out, r, w)
    else
      if 1024 ≤ writePos then none
      else
        match decompGroup mask (bit + 1) rest (writePos + 1) original with
        | none => none
        | some (out, r, w) => some (0 :: out, r, w)
  else some ([], rest, writePos)
  termination_by 8 - bit

/-- The remaining compressed data after one group is a suffix of the data
before it (needed for termination of the outer decompression loop). -/
theorem decompGroup_rest_length (mask : Nat) :
    ∀ bit rest writePos original out r w,
      decompGroup mask bit rest writePos original = some (out, r, w) →
      r.length ≤ rest.length := by
  intro bit rest writePos original
  induction bit, rest, writePos, original using decompGroup.induct mask with
  | case1 bit writePos original hcond htb =>
    intro out r w h
    rw [decompGroup.eq_def] at h
    simp [hcond, htb] at h
  | case2 bit writePos original hcond htb v rest' hw =>
    intro out r w h
    rw [decompGroup.eq_def] at h
    simp [hcond, htb, hw] at h
  | case3 bit writePos original hcond htb v rest' hw hrec ih =>
    intro out r w h
    rw [decompGroup.eq_def] at h
    simp [hcond, htb, hw, hrec] at h
  | case4 bit writePos original hcond htb v rest' hw out0 r0 w0 hrec ih =>
    intro out r w h
    rw [decompGroup.eq_def] at h
    simp only [hcond, and_self, if_true, htb, if_pos, hw, if_false, hrec] at h
    obtain ⟨rfl, rfl, rfl⟩ := by
      have := h
      simpa using this
    exact Nat.le_succ_of_le (ih out0 r0 w0 hrec)
  | case5 bit rest writePos original hcond htb hw =>
    intro out r w h
    rw [decompGroup.eq_def] at h
    simp [hcond, htb, hw] at h
  | case6 bit rest writePos original hcond htb hw hrec ih =>
    intro out r w h
    rw [decompGroup.eq_def] at h
    simp [hcond, htb, hw, hrec] at h
  | case7 bit rest writePos original hcond htb hw out0 r0 w0 hrec ih =>
    intro out r w h
    rw [decompGroup.eq_def] at h
    simp only [hcond, and_self, if_true, htb, Bool.false_eq_true, if_false, hw, hrec] at h
    obtain ⟨rfl, rfl, rfl⟩ := by
      have := h
      simpa using this
    exact ih out0 r0 w0 hrec
  | case8 bit rest writePos original hcond =>
    intro out r w h
    rw [decompGroup.eq_def] at h
    simp only [hcond, if_false] at h
    obtain ⟨rfl, rfl, rfl⟩ := by
      have := h
      simpa using this
    exact Nat.le_refl _

/-- Outer loop of `decompressPacket`:
`while (readPos < compressedBuffer.size() && writePos < originalLength)`.
Each iteration reads a mask byte and expands one group.  (The C++
`readPos >= size` check at the top of the body is unreachable: the loop
condition already guarantees `readPos < size`.) -/
def decompLoop (c : List Nat) (writePos original : Nat) : Option (List Nat) :=
  match c with
  | [] => some []
  | mask :: rest =>
    if writePos < original then
      match hg : decompGroup mask 0 rest writePos original with
      | none => none
      | some (out, r, w) =>
        have : r.length < (mask :: rest).length :=
          Nat.lt_succ_of_le (decompGroup_rest_length mask 0 rest writePos original out r w hg)
        match decompLoop r w original with
        | none => none
        | some tail => some (out ++ tail)
    else some []
  termination_by c.length

/-- `decompressPacket` from `src/compression.cpp:45-84`.  `none` models the
throws (`originalLength > 1024`, truncated compressed data).  The C++
pre-allocates `outBuf` as 1024 zero bytes, writes `writePos` bytes into it,
and returns `outBuf.resize(originalLength)`: the first `originalLength`
bytes of the written prefix padded with the untouched zeros. -/
def decompressPacket (compressedBuffer : List Nat) (originalLength : Nat) : Option (List Nat) :=
  if 1024 < originalLength then none
  else
    match decompLoop compressedBuffer 0 originalLength with
    | none => none
    | some out => some ((out ++ List.replicate (1024 - out.length) 0).take originalLength)

/-- Unfolding lemma for `decompLoop` with the dependent match (used only for
the termination argument) replaced by a plain one. -/
theorem decompLoop_eq (c : List Nat) (w o : Nat) :
    decompLoop c w o =
      match c with
      | [] => some []
      | mask :: rest =>
        if w < o then
          match decompGroup mask 0 rest w o with
          | none => none
          | some (out, r, w') =>
            match decompLoop r w' o with
            | none => none
            | some tail => some (out ++ tail)
        else some [] := by
  rw [decompLoop.eq_def]
  rcases c with _ | ⟨mask, rest⟩
  · rfl
  · by_cases hw : w < o
    · simp only [if_pos hw]
      split
      · rename_i heq
        rw [heq]
      · rename_i out r w' heq
        rw [heq]
    · simp only [if_neg hw]

example : compressPacket [0, 0, 1, 0, 0, 0, 2, 0, 3, 0, 0, 0, 0, 0, 0, 0] =
    some [68, 1, 2, 1, 3] := by
  simp +decide [compressPacket, compressLoop, compressGroupLoop]

example : decompressPacket [68, 1, 2, 1, 3] 16 =
    some [0, 0, 1, 0, 0, 0, 2, 0, 3, 0, 0, 0, 0, 0, 0, 0] := by
  rw [decompressPacket, decompLoop_eq]
  simp +decide [decompGroup]
  rw [decompLoop_eq]
  simp +decide [decompGroup]
  rw [decompLoop_eq]
  decide

example : compressPacket [0, 0, 1] = some [4, 1] := by
  simp +decide [compressPacket, compressLoop, compressGroupLoop]
example : decompressPacket [4, 1] 3 = some [0, 0, 1] := by
  rw [decompressPacket, decompLoop_eq]
  simp +decide [decompGroup]
  rw [decompLoop_eq]
  decide
example : decompressPacket [] 3 = some [0, 0, 0] := by
  rw [decompressPacket, decompLoop_eq]
  decide
example : decompressPacket [1] 8 = none := by
  rw [decompressPacket, decompLoop_eq]
  simp +decide [decompGroup]

/-- The byte predicate of the codec: a byte is stored as a literal iff it is
non-zero (`v != 0` in the C++). -/
def nz (v : Nat) : Bool := v != 0

@[simp] theorem nz_iff {v : Nat} : nz v = true ↔ v ≠ 0 := by
  simp [nz]

/-- Bits below the starting bit index are untouched by the packing loop. -/
theorem compressGroupLoop_testBit_lt :
    ∀ (g : List Nat) (bit m p m' : Nat) (lits : List Nat) (p' : Nat),
      compressGroupLoop g bit m p = some (m', lits, p') →
      ∀ j, j < bit → m'.testBit j = m.testBit j := by
  intro g
  induction g with
  | nil =>
    intro bit m p m' lits p' h j hj
    simp only [compressGroupLoop, Option.some.injEq, Prod.mk.injEq] at h
    obtain ⟨rfl, -, -⟩ := h
    rfl
  | cons v rest ih =>
    intro bit m p m' lits p' h j hj
    by_cases hv : v = 0
    · subst hv
      simp only [compressGroupLoop, ne_eq, not_true_eq_false, if_false] at h
      exact ih _ _ _ _ _ _ h j (Nat.lt_succ_of_lt hj)
    · simp only [compressGroupLoop, ne_eq, hv, not_false_eq_true, if_true] at h
      by_cases hp : 1024 ≤ p
      · simp [hp] at h
      · simp only [hp, if_false] at h
        cases hrec : compressGroupLoop rest (bit + 1) (m ||| (1 <<< bit)) (p + 1) with
        | none => rw [hrec] at h; simp at h
        | some t =>
          obtain ⟨m2, lits2, p2⟩ := t
          rw [hrec] at h
          simp only [Option.some.injEq, Prod.mk.injEq] at h
          obtain ⟨rfl, -, -⟩ := h
          rw [ih _ _ _ _ _ _ hrec j (Nat.lt_succ_of_lt hj), Nat.testBit_lor,
            Nat.shiftLeft_eq, Nat.one_mul, Nat.testBit_two_pow_of_ne (Nat.ne_of_gt hj),
            Bool.or_false]

/-- The packing loop collects exactly the non-zero bytes of the group, and
advances the output position by their number. -/
theorem compressGroupLoop_spec :
    ∀ (g : List Nat) (bit m p m' : Nat) (lits : List Nat) (p' : Nat),
      compressGroupLoop g bit m p = some (m', lits, p') →
      lits = g.filter nz ∧ p' = p + lits.length := by
  intro g
  induction g with
  | nil =>
    intro bit m p m' lits p' h
    simp only [compressGroupLoop, Option.some.injEq, Prod.mk.injEq] at h
    obtain ⟨-, rfl, rfl⟩ := h
    simp
  | cons v rest ih =>
    intro bit m p m' lits p' h
    by_cases hv : v = 0
    · subst hv
      simp only [compressGroupLoop, ne_eq, not_true_eq_false, if_false] at h
      obtain ⟨h1, h2⟩ := ih _ _ _ _ _ _ h
      refine ⟨?_, h2⟩
      rw [List.filter_cons_of_neg (by simp [nz])]
      exact h1
    · simp only [compressGroupLoop, ne_eq, hv, not_false_eq_true, if_true] at h
      by_cases hp : 1024 ≤ p
      · simp [hp] at h
      · simp only [hp, if_false] at h
        cases hrec : compressGroupLoop rest (bit + 1) (m ||| (1 <<< bit)) (p + 1) with
        | none => rw [hrec] at h; simp at h
        | some t =>
          obtain ⟨m2, lits2, p2⟩ := t
          rw [hrec] at h
          simp only [Option.some.injEq, Prod.mk.injEq] at h
          obtain ⟨-, rfl, rfl⟩ := h
          obtain ⟨h1, h2⟩ := ih _ _ _ _ _ _ hrec
          refine ⟨?_, ?_⟩
          · rw [List.filter_cons_of_pos (by simp [nz, hv]), h1]
          · simp only [List.length_cons]
            omega

/-- The packing loop succeeds iff either the group has no non-zero byte or
all its literal writes fit below output position 1024. -/
theorem compressGroupLoop_isSome :
    ∀ (g : List Nat) (bit m p : Nat),
      (compressGroupLoop g bit m p).isSome ↔
        ((g.filter nz).length = 0 ∨ p + (g.filter nz).length ≤ 1024) := by
  intro g
  induction g with
  | nil => intro bit m p; simp [compressGroupLoop]
  | cons v rest ih =>
    intro bit m p
    by_cases hv : v = 0
    · subst hv
      rw [List.filter_cons_of_neg (by simp [nz])]
      simpa only [compressGroupLoop, ne_eq, not_true_eq_false, if_false] using ih (bit + 1) m p
    · rw [List.filter_cons_of_pos (by simp [nz, hv])]
      simp only [compressGroupLoop, ne_eq, hv, not_false_eq_true, if_true, List.length_cons]
      by_cases hp : 1024 ≤ p
      · simp only [hp, if_true]
        constructor
        · intro hs; simp at hs
        · intro hor; omega
      · simp only [hp, if_false]
        have hrec := ih (bit + 1) (m ||| (1 <<< bit)) (p + 1)
        constructor
        · intro hs
          cases hr : compressGroupLoop rest (bit + 1) (m ||| (1 <<< bit)) (p + 1) with
          | none => rw [hr] at hs; simp at hs
          | some t =>
            have := hrec.mp (by rw [hr]; rfl)
            omega
        · intro hor
          have hsome : (compressGroupLoop rest (bit + 1) (m ||| (1 <<< bit)) (p + 1)).isSome := by
            rw [hrec]; omega
          cases hr : compressGroupLoop rest (bit + 1) (m ||| (1 <<< bit)) (p + 1) with
          | none => rw [hr] at hsome; simp at hsome
          | some t => obtain ⟨m2, lits2, p2⟩ := t; rfl

/-- Decompressing one group inverts packing it: if the packing loop turned
the group `g` (at bit offset `bit`, mask accumulator `m0` with no bits at or
above `bit`) into `(m, lits)`, then the unpacking loop started at the same
bit reads exactly `lits` off the stream and emits `g`.  The last side
condition says the group either is full (8 bytes) or ends exactly at
`original`, which is how `compressPacket` cuts groups. -/
theorem decompGroup_of_pack :
    ∀ (g : List Nat) (bit m0 p m : Nat) (lits : List Nat) (p' : Nat) (r : List Nat)
      (w original : Nat),
      compressGroupLoop g bit m0 p = some (m, lits, p') →
      (∀ j, bit ≤ j → m0.testBit j = false) →
      bit + g.length ≤ 8 →
      w + g.length ≤ original →
      original ≤ 1024 →
      (bit + g.length = 8 ∨ w + g.length = original) →
      decompGroup m bit (lits ++ r) w original = some (g, r, w + g.length) := by
  intro g
  induction g with
  | nil =>
    intro bit m0 p m lits p' r w original hg hm0 hbit hw horig hend
    simp only [compressGroupLoop, Option.some.injEq, Prod.mk.injEq] at hg
    obtain ⟨rfl, rfl, -⟩ := hg
    rw [decompGroup.eq_def, if_neg (by simp only [List.length_nil] at hend; omega)]
    simp
  | cons v rest ih =>
    intro bit m0 p m lits p' r w original hg hm0 hbit hw horig hend
    simp only [List.length_cons] at hbit hw hend
    have hcond : bit < 8 ∧ w < original := by omega
    by_cases hv : v = 0
    · subst hv
      simp only [compressGroupLoop, ne_eq, not_true_eq_false, if_false] at hg
      have htb : m.testBit bit = false := by
        rw [compressGroupLoop_testBit_lt rest (bit + 1) m0 p m lits p' hg bit (Nat.lt_succ_self bit)]
        exact hm0 bit (Nat.le_refl bit)
      have hm0' : ∀ j, bit + 1 ≤ j → m0.testBit j = false :=
        fun j hj => hm0 j (by omega)
      have hrec := ih (bit + 1) m0 p m lits p' r (w + 1) original hg hm0'
        (by omega) (by omega) horig (by omega)
      rw [decompGroup.eq_def, if_pos hcond, htb]
      simp only [Bool.false_eq_true, if_false, if_neg (show ¬1024 ≤ w by omega)]
      rw [hrec]
      simp only [Option.some.injEq, Prod.mk.injEq, List.length_cons, true_and]
      omega
    · simp only [compressGroupLoop, ne_eq, hv, not_false_eq_true, if_true] at hg
      by_cases hp : 1024 ≤ p
      · simp [hp] at hg
      · simp only [hp, if_false] at hg
        cases hrl : compressGroupLoop rest (bit + 1) (m0 ||| (1 <<< bit)) (p + 1) with
        | none => rw [hrl] at hg; simp at hg
        | some t =>
          obtain ⟨m2, lits2, p2⟩ := t
          rw [hrl] at hg
          simp only [Option.some.injEq, Prod.mk.injEq] at hg
          obtain ⟨rfl, rfl, -⟩ := hg
          have htb : m2.testBit bit = true := by
            rw [compressGroupLoop_testBit_lt rest (bit + 1) _ _ _ _ _ hrl bit
              (Nat.lt_succ_self bit)]
            rw [Nat.testBit_lor, hm0 bit (Nat.le_refl bit), Nat.shiftLeft_eq, Nat.one_mul,
              Nat.testBit_two_pow_self]
            rfl
          have hm0' : ∀ j, bit + 1 ≤ j → (m0 ||| (1 <<< bit)).testBit j = false := by
            intro j hj
            rw [Nat.testBit_lor, hm0 j (by omega), Nat.shiftLeft_eq, Nat.one_mul,
              Nat.testBit_two_pow_of_ne (by omega)]
            rfl
          have hrec := ih (bit + 1) (m0 ||| (1 <<< bit)) (p + 1) m2 lits2 p2 r (w + 1)
            original hrl hm0' (by omega) (by omega) horig (by omega)
          rw [decompGroup.eq_def, if_pos hcond, htb]
          simp only [if_true, List.cons_append, if_neg (show ¬1024 ≤ w by omega)]
          rw [hrec]
          simp only [Option.some.injEq, Prod.mk.injEq, List.length_cons, true_and]
          omega

/-- The outer decompression loop inverts the outer compression loop
(generalised over the write position; `n` is induction fuel bounding the
input length). -/
theorem roundtrip_loop :
    ∀ (n : Nat) (b : List Nat), b.length ≤ n →
      ∀ (p : Nat) (c : List Nat) (w original : Nat),
        compressLoop b p = some c →
        w + b.length = original → original ≤ 1024 →
        decompLoop c w original = some b := by
  intro n
  induction n with
  | zero =>
    intro b hb p c w original hc hw horig
    have : b = [] := List.length_eq_zero.mp (Nat.le_zero.mp hb)
    subst this
    simp only [compressLoop, Option.some.injEq] at hc
    subst hc
    rw [decompLoop_eq]
  | succ n ih =>
    intro b hb p c w original hc hw horig
    cases b with
    | nil =>
      simp only [compressLoop, Option.some.injEq] at hc
      subst hc
      rw [decompLoop_eq]
    | cons x xs =>
      simp only [compressLoop] at hc
      by_cases hp : 1024 ≤ p
      · simp [hp] at hc
      · simp only [hp, if_false] at hc
        cases hgl : compressGroupLoop ((x :: xs).take 8) 0 0 (p + 1) with
        | none => rw [hgl] at hc; simp at hc
        | some t =>
          obtain ⟨mask, lits, p2⟩ := t
          rw [hgl] at hc
          dsimp only at hc
          cases hrest : compressLoop ((x :: xs).drop 8) p2 with
          | none => rw [hrest] at hc; simp at hc
          | some restc =>
            rw [hrest] at hc
            simp only [Option.some.injEq] at hc
            subst hc
            have htlen : ((x :: xs).take 8).length = min 8 (x :: xs).length :=
              List.length_take 8 (x :: xs)
            have hblen : (x :: xs).length = xs.length + 1 := by simp
            have hgd : decompGroup mask 0 (lits ++ restc) w original =
                some ((x :: xs).take 8, restc, w + ((x :: xs).take 8).length) := by
              apply decompGroup_of_pack ((x :: xs).take 8) 0 0 (p + 1) mask lits p2 restc
                w original hgl
              · intro j _
                exact Nat.zero_testBit j
              · omega
              · omega
              · exact horig
              · by_cases h8 : 8 ≤ (x :: xs).length
                · left; omega
                · right
                  have : ((x :: xs).take 8).length = (x :: xs).length := by omega
                  omega
            rw [decompLoop_eq]
            have hwlt : w < original := by omega
            simp only [if_pos hwlt, hgd]
            have hdd : decompLoop restc (w + ((x :: xs).take 8).length) original =
                some ((x :: xs).drop 8) := by
              apply ih ((x :: xs).drop 8) (by simp [List.length_drop]; omega) p2 restc
                _ original hrest _ horig
              have hdlen : ((x :: xs).drop 8).length = (x :: xs).length - 8 :=
                List.length_drop 8 (x :: xs)
              omega
            rw [hdd]
            simp only [List.take_append_drop]

/-- **C1.**  For every buffer `b` of length at most 1024, if `compressPacket`
succeeds then decompressing its output at `b`'s length returns `b`. -/
theorem compress_decompress_roundtrip (b c : List Nat)
    (hlen : b.length ≤ 1024) (hc : compressPacket b = some c) :
    decompressPacket c b.length = some b := by
  rw [compressPacket] at hc
  by_cases hb : b.length = 0
  · have : b = [] := List.length_eq_zero.mp hb
    subst this
    simp only [List.length_nil, if_true, Option.some.injEq] at hc
    subst hc
    rw [decompressPacket, decompLoop_eq]
    decide
  · simp only [hb, if_false] at hc
    have hd : decompLoop c 0 b.length = some b :=
      roundtrip_loop b.length b (Nat.le_refl _) 0 c 0 b.length hc (by omega) hlen
    rw [decompressPacket, if_neg (by omega), hd]
    simp only [Option.some.injEq]
    exact List.take_left' rfl

/-- Witness for C1 at a concrete input. -/
theorem compress_decompress_roundtrip_witness :
    compressPacket [0, 0, 1] = some [4, 1] ∧
      decompressPacket [4, 1] 3 = some [0, 0, 1] := by
  have h : compressPacket [0, 0, 1] = some [4, 1] := by
    simp +decide [compressPacket, compressLoop, compressGroupLoop]
  exact ⟨h, compress_decompress_roundtrip [0, 0, 1] [4, 1] (by decide) h⟩

/-- The unpacking loop advances `writePos` by the number of bytes it emits,
and never past `original`. -/
theorem decompGroup_writePos (mask : Nat) :
    ∀ bit rest writePos original out r w,
      decompGroup mask bit rest writePos original = some (out, r, w) →
      writePos ≤ original →
      w = writePos + out.length ∧ w ≤ original := by
  intro bit rest writePos original
  induction bit, rest, writePos, original using decompGroup.induct mask with
  | case1 bit writePos original hcond htb =>
    intro out r w h _
    rw [decompGroup.eq_def] at h
    simp [hcond, htb] at h
  | case2 bit writePos original hcond htb v rest' hw =>
    intro out r w h _
    rw [decompGroup.eq_def] at h
    simp [hcond, htb, hw] at h
  | case3 bit writePos original hcond htb v rest' hw hrec ih =>
    intro out r w h _
    rw [decompGroup.eq_def] at h
    simp [hcond, htb, hw, hrec] at h
  | case4 bit writePos original hcond htb v rest' hw out0 r0 w0 hrec ih =>
    intro out r w h _
    rw [decompGroup.eq_def] at h
    simp only [hcond, and_self, if_true, htb, if_pos, hw, if_false, hrec] at h
    obtain ⟨rfl, rfl, rfl⟩ := by
      have := h
      simpa using this
    obtain ⟨h1, h2⟩ := ih out0 r0 w0 hrec (by omega)
    constructor
    · simp only [List.length_cons]; omega
    · exact h2
  | case5 bit rest writePos original hcond htb hw =>
    intro out r w h _
    rw [decompGroup.eq_def] at h
    simp [hcond, htb, hw] at h
  | case6 bit rest writePos original hcond htb hw hrec ih =>
    intro out r w h _
    rw [decompGroup.eq_def] at h
    simp [hcond, htb, hw, hrec] at h
  | case7 bit rest writePos original hcond htb hw out0 r0 w0 hrec ih =>
    intro out r w h _
    rw [decompGroup.eq_def] at h
    simp only [hcond, and_self, if_true, htb, Bool.false_eq_true, if_false, hw, hrec] at h
    obtain ⟨rfl, rfl, rfl⟩ := by
      have := h
      simpa using this
    obtain ⟨h1, h2⟩ := ih out0 r0 w0 hrec (by omega)
    constructor
    · simp only [List.length_cons]; omega
    · exact h2
  | case8 bit rest writePos original hcond =>
    intro out r w h hle
    rw [decompGroup.eq_def] at h
    simp only [hcond, if_false] at h
    obtain ⟨rfl, rfl, rfl⟩ := by
      have := h
      simpa using this
    exact ⟨by simp, hle⟩

/-- The decompression loop never emits more than `original - writePos`
bytes. -/
theorem decompLoop_length :
    ∀ (n : Nat) (c : List Nat), c.length ≤ n →
      ∀ (w original : Nat) (out : List Nat),
        w ≤ original →
        decompLoop c w original = some out →
        out.length ≤ original - w := by
  intro n
  induction n with
  | zero =>
    intro c hc w original out hle h
    have : c = [] := List.length_eq_zero.mp (Nat.le_zero.mp hc)
    subst this
    rw [decompLoop_eq] at h
    simp only [Option.some.injEq] at h
    subst h
    simp
  | succ n ih =>
    intro c hc w original out hle h
    cases c with
    | nil =>
      rw [decompLoop_eq] at h
      simp only [Option.some.injEq] at h
      subst h
      simp
    | cons mask rest =>
      rw [decompLoop_eq] at h
      by_cases hw : w < original
      · simp only [if_pos hw] at h
        cases hg : decompGroup mask 0 rest w original with
        | none => rw [hg] at h; simp at h
        | some t =>
          obtain ⟨go, r, w2⟩ := t
          rw [hg] at h
          dsimp only at h
          cases hd : decompLoop r w2 original with
          | none => rw [hd] at h; simp at h
          | some tail =>
            rw [hd] at h
            simp only [Option.some.injEq] at h
            subst h
            obtain ⟨hw2, hw2le⟩ := decompGroup_writePos mask 0 rest w original go r w2 hg hle
            have hr : r.length ≤ rest.length :=
              decompGroup_rest_length mask 0 rest w original go r w2 hg
            have htail : tail.length ≤ original - w2 := by
              apply ih r _ w2 original tail hw2le hd
              simp only [List.length_cons] at hc
              omega
            simp only [List.length_append]
            omega
      · simp only [if_neg hw, Option.some.injEq] at h
        subst h
        simp

/-- **C2.**  `decompressPacket` rejects a requested length above 1024; when
it succeeds the output has length exactly `originalLength`; and a mask byte
claiming a literal (bit 0 set) with no literal following fails
("truncated compressed data"). -/
theorem decompressPacket_contract (c : List Nat) (originalLength : Nat) :
    (1024 < originalLength → decompressPacket c originalLength = none) ∧
    (∀ out, decompressPacket c originalLength = some out →
      out.length = originalLength) ∧
    (∀ mask, mask.testBit 0 = true → 0 < originalLength →
      decompressPacket [mask] originalLength = none) := by
  refine ⟨?_, ?_, ?_⟩
  · intro h
    rw [decompressPacket, if_pos h]
  · intro out h
    rw [decompressPacket] at h
    by_cases ho : 1024 < originalLength
    · simp [ho] at h
    · simp only [ho, if_false] at h
      cases hd : decompLoop c 0 originalLength with
      | none => rw [hd] at h; simp at h
      | some o =>
        rw [hd] at h
        simp only [Option.some.injEq] at h
        subst h
        have hlen : o.length ≤ originalLength - 0 :=
          decompLoop_length c.length c (Nat.le_refl _) 0 originalLength o (by omega) hd
        simp only [List.length_take, List.length_append, List.length_replicate]
        omega
  · intro mask htb hpos
    rw [decompressPacket]
    by_cases ho : 1024 < originalLength
    · rw [if_pos ho]
    · rw [if_neg ho]
      have hloop : decompLoop [mask] 0 originalLength = none := by
        rw [decompLoop_eq]
        simp only [if_pos hpos]
        rw [decompGroup.eq_def]
        simp [htb, hpos]
      rw [hloop]

/-- Witness for C2: length > 1024 rejected; exact output length on a
success; a lone mask byte with bit 0 set fails. -/
theorem decompressPacket_contract_witness :
    decompressPacket [] 2000 = none ∧
      ([0, 0, 1] : List Nat).length = 3 ∧
      decompressPacket [1] 8 = none := by
  refine ⟨(decompressPacket_contract [] 2000).1 (by omega), ?_, ?_⟩
  · apply (decompressPacket_contract [4, 1] 3).2.1
    rw [decompressPacket, decompLoop_eq]
    simp +decide [decompGroup]
    rw [decompLoop_eq]
    decide
  · exact (decompressPacket_contract [1] 8).2.2 1 (by decide) (by decide)

/-- Number of 8-byte groups (mask bytes) for an input of length `n`. -/
def numGroups (n : Nat) : Nat := (n + 7) / 8

/-- Number of non-zero bytes of a buffer (the literal bytes the codec
stores). -/
def countNonzero (b : List Nat) : Nat := (b.filter nz).length

/-- The non-zero count splits at the 8-byte group boundary. -/
theorem countNonzero_split (b : List Nat) :
    countNonzero b = ((b.take 8).filter nz).length + countNonzero (b.drop 8) := by
  unfold countNonzero
  conv_lhs => rw [← List.take_append_drop 8 b]
  rw [List.filter_append, List.length_append]

/-- A successful compression emits one mask byte per group plus one literal
byte per non-zero input byte. -/
theorem compressLoop_some_length :
    ∀ (n : Nat) (b : List Nat), b.length ≤ n →
      ∀ p out, compressLoop b p = some out →
        out.length = numGroups b.length + countNonzero b := by
  intro n
  induction n with
  | zero =>
    intro b hb p out h
    have : b = [] := List.length_eq_zero.mp (Nat.le_zero.mp hb)
    subst this
    simp only [compressLoop, Option.some.injEq] at h
    subst h
    simp [numGroups, countNonzero]
  | succ n ih =>
    intro b hb p out h
    cases b with
    | nil =>
      simp only [compressLoop, Option.some.injEq] at h
      subst h
      simp [numGroups, countNonzero]
    | cons x xs =>
      simp only [compressLoop] at h
      by_cases hp : 1024 ≤ p
      · simp [hp] at h
      · simp only [hp, if_false] at h
        cases hgl : compressGroupLoop ((x :: xs).take 8) 0 0 (p + 1) with
        | none => rw [hgl] at h; simp at h
        | some t =>
          obtain ⟨mask, lits, p2⟩ := t
          rw [hgl] at h
          dsimp only at h
          cases hrest : compressLoop ((x :: xs).drop 8) p2 with
          | none => rw [hrest] at h; simp at h
          | some restc =>
            rw [hrest] at h
            simp only [Option.some.injEq] at h
            subst h
            obtain ⟨hlits, -⟩ := compressGroupLoop_spec _ _ _ _ _ _ _ hgl
            have hr : restc.length = numGroups ((x :: xs).drop 8).length +
                countNonzero ((x :: xs).drop 8) := by
              apply ih _ _ p2 restc hrest
              simp only [List.length_drop, List.length_cons] at hb ⊢
              omega
            have hsplit := countNonzero_split (x :: xs)
            have hdlen : ((x :: xs).drop 8).length = (x :: xs).length - 8 :=
              List.length_drop 8 (x :: xs)
            have hblen : (x :: xs).length = xs.length + 1 := by simp
            simp only [List.length_cons, List.length_append, hlits] at *
            simp only [numGroups] at *
            omega

/-- Compression fails exactly when the ideal output
(`numGroups + countNonzero` bytes, plus the starting position) does not fit
in the 1024-byte output buffer. -/
theorem compressLoop_none_iff :
    ∀ (n : Nat) (b : List Nat), b.length ≤ n →
      ∀ p, (compressLoop b p = none ↔
        b ≠ [] ∧ 1024 < p + numGroups b.length + countNonzero b) := by
  intro n
  induction n with
  | zero =>
    intro b hb p
    have : b = [] := List.length_eq_zero.mp (Nat.le_zero.mp hb)
    subst this
    simp [compressLoop]
  | succ n ih =>
    intro b hb p
    cases b with
    | nil => simp [compressLoop]
    | cons x xs =>
      have hblen : (x :: xs).length = xs.length + 1 := by simp
      have hG1 : 1 ≤ numGroups (x :: xs).length := by
        simp only [numGroups, hblen]
        omega
      simp only [compressLoop]
      by_cases hp : 1024 ≤ p
      · simp only [if_pos hp]
        constructor
        · intro _
          exact ⟨by simp, by omega⟩
        · intro _
          trivial
      · simp only [if_neg hp]
        have hL := compressGroupLoop_isSome ((x :: xs).take 8) 0 0 (p + 1)
        have hsplit := countNonzero_split (x :: xs)
        have hdlen : ((x :: xs).drop 8).length = (x :: xs).length - 8 :=
          List.length_drop 8 (x :: xs)
        cases hgl : compressGroupLoop ((x :: xs).take 8) 0 0 (p + 1) with
        | none =>
          rw [hgl] at hL
          simp only [Option.isSome_none, Bool.false_eq_true, false_iff] at hL
          push_neg at hL
          obtain ⟨hL1, hL2⟩ := hL
          simp only [hgl]
          constructor
          · intro _
            refine ⟨by simp, ?_⟩
            simp only [numGroups] at *
            omega
          · intro _
            trivial
        | some t =>
          obtain ⟨mask, lits, p2⟩ := t
          rw [hgl] at hL
          have hfit : ((((x :: xs).take 8).filter nz).length = 0 ∨
              p + 1 + (((x :: xs).take 8).filter nz).length ≤ 1024) := hL.mp rfl
          obtain ⟨hlits, hp2⟩ := compressGroupLoop_spec _ _ _ _ _ _ _ hgl
          simp only [hgl]
          have hihd := ih ((x :: xs).drop 8)
            (by simp only [List.length_drop, List.length_cons]; omega) p2
          cases hrest : compressLoop ((x :: xs).drop 8) p2 with
          | none =>
            obtain ⟨hdne, hdgt⟩ := hihd.mp hrest
            have hdpos : 1 ≤ ((x :: xs).drop 8).length := List.length_pos.mpr hdne
            simp only [hrest]
            constructor
            · intro _
              refine ⟨by simp, ?_⟩
              simp only [numGroups, hlits] at *
              omega
            · intro _
              trivial
          | some restc =>
            have hdle : (x :: xs).drop 8 = [] ∨
                p2 + numGroups ((x :: xs).drop 8).length +
                  countNonzero ((x :: xs).drop 8) ≤ 1024 := by
              by_contra hcon
              push_neg at hcon
              obtain ⟨h1, h2⟩ := hcon
              rw [hihd.mpr ⟨h1, h2⟩] at hrest
              exact Option.noConfusion hrest
            simp only [hrest]
            constructor
            · intro hfalse
              exact Option.noConfusion hfalse
            · rintro ⟨-, hgt⟩
              exfalso
              rcases hdle with hnil | hle
              · have : ((x :: xs).drop 8).length = 0 := by rw [hnil]; rfl
                have hcz : countNonzero ((x :: xs).drop 8) = 0 := by
                  rw [hnil]; rfl
                simp only [numGroups, hlits] at *
                omega
              · have hczn : 0 ≤ countNonzero ((x :: xs).drop 8) := Nat.zero_le _
                simp only [numGroups, hlits] at *
                omega

/-- `compressPacket` fails exactly when the ideal compressed size exceeds
1024. -/
theorem compressPacket_none_iff (b : List Nat) :
    compressPacket b = none ↔ 1024 < numGroups b.length + countNonzero b := by
  rw [compressPacket]
  by_cases hb : b.length = 0
  · have : b = [] := List.length_eq_zero.mp hb
    subst this
    simp [numGroups, countNonzero]
  · have hne : b ≠ [] := fun h => hb (by rw [h]; rfl)
    simp only [hb, if_false]
    rw [compressLoop_none_iff b.length b (Nat.le_refl _) 0]
    constructor
    · rintro ⟨-, h⟩
      omega
    · intro h
      exact ⟨hne, by omega⟩

/-- A successful `compressPacket` output has the ideal compressed size. -/
theorem compressPacket_some_length (b out : List Nat)
    (h : compressPacket b = some out) :
    out.length = numGroups b.length + countNonzero b := by
  rw [compressPacket] at h
  by_cases hb : b.length = 0
  · have : b = [] := List.length_eq_zero.mp hb
    subst this
    simp only [List.length_nil, if_true, Option.some.injEq] at h
    subst h
    simp [numGroups, countNonzero]
  · simp only [hb, if_false] at h
    exact compressLoop_some_length b.length b (Nat.le_refl _) 0 out h

/-- **C3.**  `compressPacket` fails exactly when the compressed output would
exceed 1024 bytes (one mask byte per 8-byte group plus one byte per
non-zero input byte); a returned buffer consists of exactly the bytes used
(so its length is the ideal size, at most 1024); and the empty input
compresses to the empty output. -/
theorem compressPacket_contract (b : List Nat) :
    (compressPacket b = none ↔ 1024 < numGroups b.length + countNonzero b) ∧
    (∀ out, compressPacket b = some out →
      out.length = numGroups b.length + countNonzero b ∧ out.length ≤ 1024) ∧
    compressPacket [] = some [] := by
  refine ⟨compressPacket_none_iff b, ?_, by rw [compressPacket]; rfl⟩
  intro out h
  have hlen := compressPacket_some_length b out h
  refine ⟨hlen, ?_⟩
  by_contra hgt
  push_neg at hgt
  have : compressPacket b = none := (compressPacket_none_iff b).mpr (by omega)
  rw [this] at h
  exact Option.noConfusion h

/-- Witness for C3 at a concrete input. -/
theorem compressPacket_contract_witness :
    ([4, 1] : List Nat).length = numGroups 3 + countNonzero [0, 0, 1] ∧
      ([4, 1] : List Nat).length ≤ 1024 := by
  have h : compressPacket [0, 0, 1] = some [4, 1] := by
    simp +decide [compressPacket, compressLoop, compressGroupLoop]
  simpa using (compressPacket_contract [0, 0, 1]).2.1 [4, 1] h

/-- **C10.**  Whenever the ideal compressed size
`⌈n/8⌉ + (number of non-zero bytes)` fits in 1024 bytes, `compressPacket`
succeeds, and its output has exactly that length.  (The input length is not
checked, so `b` may be longer than 1024.) -/
theorem compressPacket_success (b : List Nat)
    (h : numGroups b.length + countNonzero b ≤ 1024) :
    ∃ out, compressPacket b = some out ∧
      out.length = numGroups b.length + countNonzero b := by
  cases hc : compressPacket b with
  | none =>
    have := (compressPacket_none_iff b).mp hc
    omega
  | some out =>
    exact ⟨out, rfl, compressPacket_some_length b out hc⟩

/-- Witness for C10 at a concrete input. -/
theorem compressPacket_success_witness :
    numGroups 3 + countNonzero [5, 0, 9] ≤ 1024 ∧
      ∃ out, compressPacket [5, 0, 9] = some out ∧
        out.length = numGroups ([5, 0, 9] : List Nat).length + countNonzero [5, 0, 9] :=
  ⟨by decide, compressPacket_success [5, 0, 9] (by decide)⟩

/-- **C8.**  The spec's literal compression round-trip:
`[0,0,1,0,0,0,2,0, 3,0,0,0,0,0,0,0]` compresses to
`[0b01000100, 0x01, 0x02, 0b00000001, 0x03]` and decompressing that output
at `originalLength = 16` restores the input.  The first group's mask
`0b01000100` has bits 2 and 6 set — exactly the indices of its non-zero
bytes (LSB = bit 0), fixing the mask convention. -/
theorem compress_example_roundtrip :
    compressPacket [0, 0, 1, 0, 0, 0, 2, 0, 3, 0, 0, 0, 0, 0, 0, 0] =
        some [0b01000100, 0x01, 0x02, 0b00000001, 0x03] ∧
      decompressPacket [0b01000100, 0x01, 0x02, 0b00000001, 0x03] 16 =
        some [0, 0, 1, 0, 0, 0, 2, 0, 3, 0, 0, 0, 0, 0, 0, 0] := by
  constructor
  · simp +decide [compressPacket, compressLoop, compressGroupLoop]
  · rw [decompressPacket, decompLoop_eq]
    simp +decide [decompGroup]
    rw [decompLoop_eq]
    simp +decide [decompGroup]
    rw [decompLoop_eq]
    decide

/-! ## Wire codec (`src/serialization.cpp`)

`parseClientMessage` reads from a `std::span<const uint8_t>`.  Its
`readLittleEndian` helper bounds-checks every byte it reads, but the direct
`buffer[offset++]` accesses and the string reads do not: a C++ access past
the end of the span is undefined behaviour.  The embedding therefore
returns `Option (Option ClientMessageComplete)`: the outer `none` marks an
out-of-bounds raw access (C++ UB), `some none` is `std::nullopt` (datagram
dropped), `some (some m)` a parsed message.  C++ strings are byte lists. -/

/-- `readLittleEndian<T>`: accumulate `buffer[offset+i] << (i*8)` for each
of the `w` bytes of `T`, skipping (not failing on) out-of-range bytes. -/
def readLittleEndian (w : Nat) (buffer : List Nat) (offset : Nat) : Nat :=
  (List.range w).foldl
    (fun value i =>
      if offset + i < buffer.length then value ||| (buffer.getD (offset + i) 0 <<< (8 * i))
      else value)
    0

/-- The scan of `parseClientMessage`'s `readString` lambda:
`while (end < buffer.size() && end < offset + maxLen && buffer[end] != 0) end++`.
Returns the final value of `end`; the `end < offset + maxLen` bound is the
structural fuel (last argument counts the remaining field bytes). -/
def stringScanEnd (buffer : List Nat) (e : Nat) : Nat → Nat
  | 0 => e
  | remaining + 1 =>
    if e < buffer.length ∧ buffer.getD e 0 ≠ 0 then
      stringScanEnd buffer (e + 1) remaining
    else e

/-- `readString(maxLen)`: the bytes `buffer[offset..end)` (the C++ copies
exactly those into the `std::string`); the caller's offset then advances by
the full `maxLen` independently of `end`. -/
def readString (buffer : List Nat) (offset maxLen : Nat) : List Nat :=
  (buffer.drop offset).take (stringScanEnd buffer offset maxLen - offset)

/-- The `for (i = 0; i < count; ++i) if (offset + 4 <= size) push(read)`
loops of the `Input` and `PlayerInputAck` cases.  Returns the list read and
the final offset; an iteration without space reads nothing and leaves the
offset unchanged. -/
def readU32List (buffer : List Nat) (offset : Nat) : Nat → List Nat × Nat
  | 0 => ([], offset)
  | count + 1 =>
    if offset + 4 ≤ buffer.length then
      let v := readLittleEndian 4 buffer offset
      let (rest, o) := readU32List buffer (offset + 4) count
      (v :: rest, o)
    else
      readU32List buffer offset count

structure ClientHeader where
  type : Nat
  sequence : Nat
deriving DecidableEq, Repr

structure ClientPlayerConfigData where
  teamId : Nat
  playerIndex : Nat
deriving DecidableEq, Repr

structure ClientMatchData where
  matchId : List Nat
  key : List Nat
  environmentId : List Nat
deriving DecidableEq, Repr

structure NewConnectionPayload where
  messageVersion : Nat
  playerData : ClientPlayerConfigData
  matchData : ClientMatchData
deriving DecidableEq, Repr

structure InputPayload where
  startFrame : Nat
  clientFrame : Nat
  numFrames : Nat
  numChecksums : Nat
  inputPerFrame : List Nat
  checksumPerFrame : List Nat
deriving DecidableEq, Repr

structure PlayerInputAckPayload where
  numPlayers : Nat
  ackFrame : List Nat
  serverMessageSequenceNumber : Nat
deriving DecidableEq, Repr

structure MatchResultPayload where
  numPlayers : Nat
  lastFrameChecksum : Nat
  winningTeamIndex : Nat
deriving DecidableEq, Repr

structure QualityDataPayload where
  serverMessageSequenceNumber : Nat
deriving DecidableEq, Repr

structure DisconnectingPayload where
  reason : Nat
deriving DecidableEq, Repr

structure PlayerDisconnectedAckPayload where
  playerDisconnectedArrayIndex : Nat
deriving DecidableEq, Repr

structure ReadyToStartMatchPayload where
  ready : Nat
deriving DecidableEq, Repr

/-- The `ClientMessageVariant` of `include/serialization.h`. -/
inductive ClientMessageVariant where
  | newConnection (p : NewConnectionPayload)
  | input (p : InputPayload)
  | playerInputAck (p : PlayerInputAckPayload)
  | matchResult (p : MatchResultPayload)
  | qualityData (p : QualityDataPayload)
  | disconnecting (p : DisconnectingPayload)
  | playerDisconnectedAck (p : PlayerDisconnectedAckPayload)
  | readyToStartMatch (p : ReadyToStartMatchPayload)
deriving DecidableEq, Repr

structure ClientMessageComplete where
  header : ClientHeader
  payload : ClientMessageVariant
deriving DecidableEq, Repr

/-- `parseClientMessage` from `src/serialization.cpp:29-166`.  The message
type dispatch (`switch` on the type byte, enum values `NewConnection = 1`
… `ReadyToStartMatch = 8`) is an if-chain on the byte's value.  Outer
`none` = an unchecked (out-of-bounds) span access; `some none` =
`std::nullopt`. -/
def parseClientMessage (buffer : List Nat) : Option (Option ClientMessageComplete) :=
  if buffer.length < 5 then some none
  else
    let type := buffer.getD 0 0
    let sequence := readLittleEndian 4 buffer 1
    if type = 1 then
      let messageVersion := readLittleEndian 2 buffer 5
      let teamId := readLittleEndian 2 buffer 7
      let playerIndex := readLittleEndian 2 buffer 9
      let matchId := readString buffer 11 25
      let key := readString buffer 36 45
      let environmentId := readString buffer 81 25
      some (some ⟨⟨type, sequence⟩,
        .newConnection ⟨messageVersion, ⟨teamId, playerIndex⟩,
          ⟨matchId, key, environmentId⟩⟩⟩)
    else if type = 2 then
      let startFrame := readLittleEndian 4 buffer 5
      let clientFrame := readLittleEndian 4 buffer 9
      match buffer.get? 13, buffer.get? 14 with
      | some numFrames, some numChecksums =>
        let (inputPerFrame, o2) := readU32List buffer 15 numFrames
        let (checksumPerFrame, _) := readU32List buffer o2 numChecksums
        some (some ⟨⟨type, sequence⟩,
          .input ⟨startFrame, clientFrame, numFrames, numChecksums,
            inputPerFrame, checksumPerFrame⟩⟩)
      | _, _ => none
    else if type = 3 then
      match buffer.get? 5 with
      | some numPlayers =>
        let (ackFrame, o2) := readU32List buffer 6 numPlayers
        let seqNum := readLittleEndian 4 buffer o2
        some (some ⟨⟨type, sequence⟩,
          .playerInputAck ⟨numPlayers, ackFrame, seqNum⟩⟩)
      | none => none
    else if type = 4 then
      match buffer.get? 5, buffer.get? 10 with
      | some numPlayers, some winningTeamIndex =>
        let lastFrameChecksum := readLittleEndian 4 buffer 6
        some (some ⟨⟨type, sequence⟩,
          .matchResult ⟨numPlayers, lastFrameChecksum, winningTeamIndex⟩⟩)
      | _, _ => none
    else if type = 5 then
      some (some ⟨⟨type, sequence⟩, .qualityData ⟨readLittleEndian 4 buffer 5⟩⟩)
    else if type = 6 then
      match buffer.get? 5 with
      | some reason => some (some ⟨⟨type, sequence⟩, .disconnecting ⟨reason⟩⟩)
      | none => none
    else if type = 7 then
      match buffer.get? 5 with
      | some idx => some (some ⟨⟨type, sequence⟩, .playerDisconnectedAck ⟨idx⟩⟩)
      | none => none
    else if type = 8 then
      match buffer.get? 5 with
      | some ready => some (some ⟨⟨type, sequence⟩, .readyToStartMatch ⟨ready⟩⟩)
      | none => none
    else
      some none

/-- The string scan never moves backwards. -/
theorem stringScanEnd_ge (buffer : List Nat) :
    ∀ (fuel e : Nat), e ≤ stringScanEnd buffer e fuel := by
  intro fuel
  induction fuel with
  | zero => intro e; exact Nat.le_refl _
  | succ n ih =>
    intro e
    rw [stringScanEnd]
    by_cases hc : e < buffer.length ∧ buffer.getD e 0 ≠ 0
    · rw [if_pos hc]
      exact Nat.le_trans (Nat.le_succ e) (ih (e + 1))
    · rw [if_neg hc]

/-- When the whole fixed-width field is inside the buffer, `readString`
returns the field's bytes up to (excluding) its first zero byte. -/
theorem readString_spec (buffer : List Nat) :
    ∀ (w o : Nat), o + w ≤ buffer.length →
      readString buffer o w = ((buffer.drop o).take w).takeWhile (fun v => v != 0) := by
  intro w
  induction w with
  | zero =>
    intro o _
    simp [readString, stringScanEnd]
  | succ w ih =>
    intro o h
    have ho : o < buffer.length := by omega
    have hdrop : buffer.drop o = buffer.getD o 0 :: buffer.drop (o + 1) := by
      rw [List.drop_eq_getElem_cons ho, List.getD_eq_getElem buffer 0 ho]
    by_cases hz : buffer.getD o 0 = 0
    · rw [readString, stringScanEnd, if_neg (fun hc => hc.2 hz), Nat.sub_self, List.take_zero,
        hdrop, List.take_succ_cons]
      rw [List.takeWhile_cons_of_neg (by simp only [hz]; decide)]
    · rw [readString, stringScanEnd, if_pos ⟨ho, hz⟩]
      have hge : o + 1 ≤ stringScanEnd buffer (o + 1) w := stringScanEnd_ge buffer w (o + 1)
      have hE : stringScanEnd buffer (o + 1) w - o =
          (stringScanEnd buffer (o + 1) w - (o + 1)) + 1 := by omega
      rw [hE, hdrop, List.take_succ_cons, List.take_succ_cons,
        List.takeWhile_cons_of_pos (by simpa using hz)]
      have := ih (o + 1) (by omega)
      rw [readString] at this
      rw [this]

/-- **C6.**  A `NewConnection` datagram holding the full fixed-width payload
(5-byte header, 3 `u16` fields, then string fields of widths 25, 45, 25,
so 106 bytes) parses with `match_id` read at offset 11 width 25, `key` at
offset 36 width 45, `environment_id` at offset 81 width 25; each string is
the field's bytes up to (excluding) its first zero byte, and each field
consumes its full width regardless of where the zero occurs (the offsets
36 = 11 + 25 and 81 = 36 + 45 are fixed). -/
theorem parse_newConnection_strings (buffer : List Nat)
    (hlen : 106 ≤ buffer.length) (htype : buffer.getD 0 0 = 1) :
    ∃ messageVersion playerData,
      parseClientMessage buffer = some (some ⟨⟨1, readLittleEndian 4 buffer 1⟩,
        .newConnection ⟨messageVersion, playerData,
          ⟨((buffer.drop 11).take 25).takeWhile (fun v => v != 0),
           ((buffer.drop 36).take 45).takeWhile (fun v => v != 0),
           ((buffer.drop 81).take 25).takeWhile (fun v => v != 0)⟩⟩⟩) := by
  refine ⟨readLittleEndian 2 buffer 5,
    ⟨readLittleEndian 2 buffer 7, readLittleEndian 2 buffer 9⟩, ?_⟩
  rw [parseClientMessage.eq_def]
  rw [if_neg (show ¬(buffer.length < 5) by omega)]
  simp only [htype, if_pos]
  rw [readString_spec buffer 25 11 (by omega), readString_spec buffer 45 36 (by omega),
    readString_spec buffer 25 81 (by omega)]

/-- Witness for C6: an all-zero payload parses with three empty strings. -/
theorem parse_newConnection_strings_witness :
    ∃ messageVersion playerData,
      parseClientMessage (1 :: List.replicate 105 0) =
        some (some ⟨⟨1, readLittleEndian 4 (1 :: List.replicate 105 0) 1⟩,
          .newConnection ⟨messageVersion, playerData,
            ⟨(((1 :: List.replicate 105 0).drop 11).take 25).takeWhile (fun v => v != 0),
             (((1 :: List.replicate 105 0).drop 36).take 45).takeWhile (fun v => v != 0),
             (((1 :: List.replicate 105 0).drop 81).take 25).takeWhile (fun v => v != 0)⟩⟩⟩) :=
  parse_newConnection_strings (1 :: List.replicate 105 0) (by simp) (by decide)

/-- **C7.**  A datagram shorter than the 5-byte header, or whose type byte
is not one of the eight known client message types 1..8, is dropped
(`std::nullopt`), not an error. -/
theorem parse_drops_short_or_unknown (buffer : List Nat)
    (h : buffer.length < 5 ∨ buffer.getD 0 0 < 1 ∨ 8 < buffer.getD 0 0) :
    parseClientMessage buffer = some none := by
  by_cases hl : buffer.length < 5
  · simp [parseClientMessage, hl]
  · have ht : buffer.getD 0 0 < 1 ∨ 8 < buffer.getD 0 0 := by
      rcases h with h | h | h
      · exact absurd h hl
      · exact Or.inl h
      · exact Or.inr h
    have h1 : ¬(buffer.getD 0 0 = 1) := by omega
    have h2 : ¬(buffer.getD 0 0 = 2) := by omega
    have h3 : ¬(buffer.getD 0 0 = 3) := by omega
    have h4 : ¬(buffer.getD 0 0 = 4) := by omega
    have h5 : ¬(buffer.getD 0 0 = 5) := by omega
    have h6 : ¬(buffer.getD 0 0 = 6) := by omega
    have h7 : ¬(buffer.getD 0 0 = 7) := by omega
    have h8 : ¬(buffer.getD 0 0 = 8) := by omega
    simp only [parseClientMessage, hl, h1, h2, h3, h4, h5, h6, h7, h8, if_false, ite_false]

/-- Witness for C7: a short datagram and an unknown type 9 are both
dropped. -/
theorem parse_drops_short_or_unknown_witness :
    parseClientMessage [1, 2] = some none ∧
      parseClientMessage [9, 0, 0, 0, 0] = some none :=
  ⟨parse_drops_short_or_unknown [1, 2] (Or.inl (by decide)),
   parse_drops_short_or_unknown [9, 0, 0, 0, 0] (Or.inr (Or.inr (by decide)))⟩

/-- **C9** (code bug).  A 5-byte datagram whose type byte is `Input` makes
`parseClientMessage` execute `payload.numFrames = buffer[offset++]` at
offset 13, past the end of the 5-byte span — undefined behaviour in the
C++ (the outer `none` of the embedding).  The parse is *not* free of
out-of-bounds accesses, contradicting the claim; per the spec's error
policy a malformed packet should be dropped, not read out of bounds. -/
theorem parse_truncated_input_oob :
    parseClientMessage [2, 0, 0, 0, 0] = none := by decide

example : parseClientMessage [9, 0, 0, 0, 0] = some none := by decide
example : parseClientMessage [1, 2] = some none := by decide
example : parseClientMessage [2, 0, 0, 0, 0] = none := by decide
example : parseClientMessage [2, 7, 0, 0, 0, 1, 0, 0, 0, 2, 0, 0, 0, 1, 0, 9, 0, 0, 0] =
    some (some ⟨⟨2, 7⟩, .input ⟨1, 2, 1, 0, [9], []⟩⟩) := by decide

/-! ### Serialisation (`serializeServerMessage`)

The C++ computes the payload size with a first `std::visit`, allocates a
zero-filled buffer of that size, writes header and payload into it at an
advancing `offset` with a second `std::visit`, and finally
`buffer.resize(offset)` if `offset < buffer.size()`.  The embedding mirrors
this: a zero-filled `List.replicate`, `List.set` writes, and a final
`take offset`.

C++ `float` values (the `rift` field) are modelled as exact rationals `ℚ`;
on inputs whose value and product by 100 are exactly representable in
`float` (e.g. dyadic rationals of small height) the model coincides with
the IEEE evaluation.  `int16_t` fields are modelled as `Int` and written
through their two's-complement residue `% 2^16`. -/

/-- `writeLittleEndian<T>`:
`for i < w: buffer[offset + i] = (value >> (i*8)) & 0xFF`. -/
def writeLittleEndian (w : Nat) (buffer : List Nat) (offset value : Nat) : List Nat :=
  (List.range w).foldl (fun b i => b.set (offset + i) ((value >>> (8 * i)) % 256)) buffer

/-- Two's-complement wire representation of an `int16_t` value. -/
def int16ToWire (v : Int) : Nat := (v % 65536).toNat

/-- C++ float→integer conversion (`static_cast<int16_t>`): truncation toward
zero, on the exact rational model of the float value. -/
def truncToInt (q : ℚ) : Int := q.num.tdiv (q.den : Int)

/-- `constexpr std::array<uint16_t, 4> PlayerConfigValues = {0, 257, 512, 769}`. -/
def PlayerConfigValues : List Nat := [0, 257, 512, 769]

structure ServerHeader where
  type : Nat
  sequence : Nat
deriving DecidableEq, Repr

structure NewConnectionReplyPayload where
  success : Nat
  matchNumPlayers : Nat
  playerIndex : Nat
  matchDurationInFrames : Nat
  unknown : Nat
  isValidationServerDebugMode : Nat
deriving DecidableEq, Repr

structure InputAckPayload where
  ackFrame : Nat
deriving DecidableEq, Repr

structure PlayerInputPayload where
  numPlayers : Nat
  startFrame : List Nat
  numFrames : List Nat
  numPredictedOverrides : Nat
  numZeroedOverrides : Nat
  ping : Int
  packetsLossPercent : Int
  rift : ℚ
  checksumAckFrame : Nat
  inputPerFrame : List (List Nat)
deriving DecidableEq, Repr

structure RequestQualityDataPayload where
  ping : Int
  packetsLossPercent : Int
deriving DecidableEq, Repr

structure PlayerStatusData where
  averagePing : Int
deriving DecidableEq, Repr

structure PlayersStatusPayload where
  numPlayers : Nat
  status : List PlayerStatusData
deriving DecidableEq, Repr

structure KickPayload where
  reason : Nat
  param1 : Nat
deriving DecidableEq, Repr

structure ChecksumAckPayload where
  ackFrame : Nat
deriving DecidableEq, Repr

structure PlayersConfigurationDataPayload where
  numPlayers : Nat
  configValues : List Nat
deriving DecidableEq, Repr

structure PlayerDisconnectedPayload where
  playerIndex : Nat
  shouldAITakeControl : Nat
  AITakeControlFrame : Nat
  playerDisconnectedArrayIndex : Nat
deriving DecidableEq, Repr

structure ChangePortPayload where
  port : Nat
deriving DecidableEq, Repr

/-- The `ServerMessageVariant` of `include/serialization.h`
(`startGame` is the `std::monostate` alternative). -/
inductive ServerMessageVariant where
  | newConnectionReply (p : NewConnectionReplyPayload)
  | inputAck (p : InputAckPayload)
  | playerInput (p : PlayerInputPayload)
  | requestQualityData (p : RequestQualityDataPayload)
  | playersStatus (p : PlayersStatusPayload)
  | kick (p : KickPayload)
  | checksumAck (p : ChecksumAckPayload)
  | playersConfigurationData (p : PlayersConfigurationDataPayload)
  | playerDisconnected (p : PlayerDisconnectedPayload)
  | changePort (p : ChangePortPayload)
  | startGame
deriving DecidableEq, Repr

/-- The size calculation of `serializeServerMessage` (first `std::visit`):
5 header bytes plus the per-variant payload size.  For `PlayerInput` the
input words are counted as
`for (i = 0; i < maxPlayers && i < numFrames.size(); ++i) size += numFrames[i]*4`. -/
def calcSize (payload : ServerMessageVariant) (maxPlayers : Nat) : Nat :=
  5 + match payload with
  | .newConnectionReply _ => 9
  | .inputAck _ => 4
  | .playerInput p =>
      1 + maxPlayers * 4 + maxPlayers + (2 + 2) + (2 + 2 + 2) + 4 +
        ((List.range (min maxPlayers p.numFrames.length)).map
          (fun i => p.numFrames.getD i 0 * 4)).sum
  | .requestQualityData _ => 4
  | .playersStatus _ => 1 + maxPlayers * 2
  | .kick _ => 2 + 4
  | .checksumAck _ => 4
  | .playersConfigurationData _ => 1 + maxPlayers * 4
  | .playerDisconnected _ => 1 + 1 + 4 + 2
  | .changePort _ => 2
  | .startGame => 0

/-- `serializeServerMessage` from `src/serialization.cpp:168-346`.
`maxPlayers` is the server's player-slot count (C++ `int`, here `Nat`). -/
def serializeServerMessage (header : ServerHeader) (payload : ServerMessageVariant)
    (maxPlayers : Nat) : List Nat :=
  let size := calcSize payload maxPlayers
  let buffer0 := List.replicate size 0
  let buffer1 := buffer0.set 0 header.type
  let buffer2 := writeLittleEndian 4 buffer1 1 header.sequence
  let s : List Nat × Nat :=
    match payload with
    | .newConnectionReply p =>
        let b := buffer2.set 5 p.success
        let b := b.set 6 p.matchNumPlayers
        let b := b.set 7 p.playerIndex
        let b := writeLittleEndian 4 b 8 p.matchDurationInFrames
        let b := b.set 12 0
        let b := b.set 13 p.isValidationServerDebugMode
        (b, 14)
    | .inputAck p =>
        (writeLittleEndian 4 buffer2 5 p.ackFrame, 9)
    | .playerInput p =>
        let b := buffer2.set 5 p.numPlayers
        let s := (List.range maxPlayers).foldl
          (fun s i => (writeLittleEndian 4 s.1 s.2 (p.startFrame.getD i 0), s.2 + 4))
          (b, 6)
        let s := (List.range maxPlayers).foldl
          (fun s i => (s.1.set s.2 (p.numFrames.getD i 0), s.2 + 1)) s
        let s := (writeLittleEndian 2 s.1 s.2 p.numPredictedOverrides, s.2 + 2)
        let s := (writeLittleEndian 2 s.1 s.2 p.numZeroedOverrides, s.2 + 2)
        let s := (writeLittleEndian 2 s.1 s.2 (int16ToWire p.ping), s.2 + 2)
        let s := (writeLittleEndian 2 s.1 s.2 (int16ToWire p.packetsLossPercent), s.2 + 2)
        let s := (writeLittleEndian 2 s.1 s.2
          (int16ToWire (truncToInt (p.rift * 100))), s.2 + 2)
        let s := (writeLittleEndian 4 s.1 s.2 p.checksumAckFrame, s.2 + 4)
        (List.range maxPlayers).foldl
          (fun s pi =>
            (List.range (p.numFrames.getD pi 0)).foldl
              (fun t f =>
                (writeLittleEndian 4 t.1 t.2 ((p.inputPerFrame.getD pi []).getD f 0),
                 t.2 + 4))
              s)
          s
    | .requestQualityData p =>
        let b := writeLittleEndian 2 buffer2 5 (int16ToWire p.ping)
        (writeLittleEndian 2 b 7 (int16ToWire p.packetsLossPercent), 9)
    | .playersStatus p =>
        let b := buffer2.set 5 p.numPlayers
        (List.range maxPlayers).foldl
          (fun s i =>
            (writeLittleEndian 2 s.1 s.2
              (int16ToWire (((p.status.getD i ⟨0⟩).averagePing : Int))), s.2 + 2))
          (b, 6)
    | .kick p =>
        let b := writeLittleEndian 2 buffer2 5 p.reason
        (writeLittleEndian 4 b 7 p.param1, 11)
    | .checksumAck p =>
        (writeLittleEndian 4 buffer2 5 p.ackFrame, 9)
    | .playersConfigurationData p =>
        let b := buffer2.set 5 p.numPlayers
        (List.range maxPlayers).foldl
          (fun s i =>
            (writeLittleEndian 2 s.1 s.2
              (PlayerConfigValues.getD (i % PlayerConfigValues.length) 0), s.2 + 2))
          (b, 6)
    | .playerDisconnected p =>
        let b := buffer2.set 5 p.playerIndex
        let b := b.set 6 p.shouldAITakeControl
        let b := writeLittleEndian 4 b 7 p.AITakeControlFrame
        (writeLittleEndian 2 b 11 p.playerDisconnectedArrayIndex, 13)
    | .changePort p =>
        (writeLittleEndian 2 buffer2 5 p.port, 7)
    | .startGame =>
        (buffer2, 5)
  if s.2 < s.1.length then s.1.take s.2 else s.1

/-! ### From in-place writes to byte lists

`serializeServerMessage` writes sequentially at an advancing offset into
the pre-allocated buffer.  The following bridge expresses such a write
sequence as the emitted byte list. -/

/-- The little-endian bytes `(value >> (i*8)) & 0xFF` that
`writeLittleEndian w` stores. -/
def leBytes (w v : Nat) : List Nat :=
  (List.range w).map (fun i => (v >>> (8 * i)) % 256)

theorem leBytes_length (w v : Nat) : (leBytes w v).length = w := by
  simp [leBytes]

/-- `leBytes 2` written with division. -/
theorem leBytes_two (v : Nat) : leBytes 2 v = [v % 256, v / 256 % 256] := by
  simp [leBytes, List.range_succ, Nat.shiftRight_eq_div_pow]

/-- Store consecutive bytes starting at `off`. -/
def setSeq : List Nat → Nat → List Nat → List Nat
  | buf, _, [] => buf
  | buf, off, b :: bs => setSeq (buf.set off b) (off + 1) bs

theorem setSeq_length : ∀ (bs buf : List Nat) (off : Nat),
    (setSeq buf off bs).length = buf.length := by
  intro bs
  induction bs with
  | nil => intro buf off; rfl
  | cons b bs ih =>
    intro buf off
    rw [setSeq, ih, List.length_set]

theorem setSeq_append : ∀ (a b : List Nat) (buf : List Nat) (off : Nat),
    setSeq buf off (a ++ b) = setSeq (setSeq buf off a) (off + a.length) b := by
  intro a
  induction a with
  | nil => intro b buf off; rfl
  | cons x a ih =>
    intro b buf off
    rw [List.cons_append, setSeq, setSeq, ih]
    congr 1
    simp only [List.length_cons]
    omega

/-- Writing `C` right after an already-written prefix `B` extends the
prefix. -/
theorem setSeq_chain {buf B C : List Nat} {o : Nat} (h : B.length = o) :
    setSeq (setSeq buf 0 B) o C = setSeq buf 0 (B ++ C) := by
  rw [setSeq_append, Nat.zero_add, h]

theorem writeLittleEndian_eq : ∀ (w : Nat) (buf : List Nat) (off v : Nat),
    writeLittleEndian w buf off v = setSeq buf off (leBytes w v) := by
  intro w
  induction w with
  | zero => intro buf off v; rfl
  | succ w ih =>
    intro buf off v
    rw [writeLittleEndian, List.range_succ, List.foldl_append]
    have hl : (List.range w).foldl (fun b i => b.set (off + i) ((v >>> (8 * i)) % 256)) buf =
        writeLittleEndian w buf off v := rfl
    rw [hl, ih]
    simp only [List.foldl_cons, List.foldl_nil]
    have hr : leBytes (w + 1) v = leBytes w v ++ [(v >>> (8 * w)) % 256] := by
      rw [leBytes, List.range_succ, List.map_append]
      rfl
    rw [hr, setSeq_append, leBytes_length]
    rfl

/-- An in-bounds write sequence replaces the bytes `[off, off + |bs|)`. -/
theorem setSeq_eq_of_le : ∀ (bs buf : List Nat) (off : Nat),
    off + bs.length ≤ buf.length →
    setSeq buf off bs = buf.take off ++ bs ++ buf.drop (off + bs.length) := by
  intro bs
  induction bs with
  | nil =>
    intro buf off h
    simp only [setSeq, List.append_nil, List.length_nil, Nat.add_zero]
    exact (List.take_append_drop off buf).symm
  | cons b bs ih =>
    intro buf off h
    simp only [List.length_cons] at h
    have ho : off < buf.length := by omega
    have hset : buf.set off b = buf.take off ++ b :: buf.drop (off + 1) :=
      List.set_eq_take_cons_drop b ho
    have hstep : setSeq buf off (b :: bs) = setSeq (buf.set off b) (off + 1) bs := rfl
    rw [hstep, ih (buf.set off b) (off + 1) (by rw [List.length_set]; omega)]
    have htakelen : (buf.take off).length = off := by
      rw [List.length_take]
      omega
    have htake : (buf.set off b).take (off + 1) = buf.take off ++ [b] := by
      rw [hset, List.take_append_eq_append_take, htakelen]
      have h1 : (buf.take off).take (off + 1) = buf.take off :=
        List.take_of_length_le (by rw [htakelen]; omega)
      have h2 : off + 1 - off = 1 := by omega
      rw [h1, h2, List.take_succ_cons, List.take_zero]
    have hdropset : (buf.set off b).drop (off + 1 + bs.length) =
        buf.drop (off + 1 + bs.length) := by
      rw [hset, List.drop_append_eq_append_drop, htakelen]
      have h3 : (buf.take off).drop (off + 1 + bs.length) = [] :=
        List.drop_eq_nil_of_le (by rw [htakelen]; omega)
      have h4 : off + 1 + bs.length - off = bs.length + 1 := by omega
      rw [h3, List.nil_append, h4, List.drop_succ_cons, List.drop_drop]
    rw [htake, hdropset]
    have h5 : off + 1 + bs.length = off + (bs.length + 1) := by omega
    rw [h5]
    simp [List.append_assoc]

theorem join_map_leBytes_length (w : Nat) (g : Nat → Nat) :
    ∀ n : Nat, (((List.range n).map (fun i => leBytes w (g i))).flatten).length = w * n := by
  intro n
  induction n with
  | zero => rfl
  | succ n ih =>
    rw [List.range_succ, List.map_append, List.flatten_append, List.length_append, ih]
    simp only [List.map_cons, List.map_nil, List.flatten_cons, List.flatten_nil,
      List.append_nil, leBytes_length]
    ring

/-- A loop of `w`-byte little-endian writes is the write of the joined
byte lists. -/
theorem foldl_writeW (w : Nat) (g : Nat → Nat) :
    ∀ (n : Nat) (buf : List Nat) (off : Nat),
      (List.range n).foldl (fun s i => (writeLittleEndian w s.1 s.2 (g i), s.2 + w))
          (buf, off) =
        (setSeq buf off (((List.range n).map (fun i => leBytes w (g i))).flatten),
          off + w * n) := by
  intro n
  induction n with
  | zero => intro buf off; simp [setSeq]
  | succ n ih =>
    intro buf off
    rw [List.range_succ, List.foldl_append, ih]
    simp only [List.foldl_cons, List.foldl_nil]
    rw [List.map_append, List.flatten_append]
    simp only [List.map_cons, List.map_nil, List.flatten_cons, List.flatten_nil, List.append_nil]
    rw [setSeq_append, join_map_leBytes_length, writeLittleEndian_eq]
    simp only [Prod.mk.injEq]
    exact ⟨trivial, by ring⟩

/-- A loop of single-byte writes is the write of the byte list. -/
theorem foldl_set1 (g : Nat → Nat) :
    ∀ (n : Nat) (buf : List Nat) (off : Nat),
      (List.range n).foldl (fun s i => (s.1.set s.2 (g i), s.2 + 1)) (buf, off) =
        (setSeq buf off ((List.range n).map g), off + n) := by
  intro n
  induction n with
  | zero => intro buf off; simp [setSeq]
  | succ n ih =>
    intro buf off
    rw [List.range_succ, List.foldl_append, ih]
    simp only [List.foldl_cons, List.foldl_nil]
    rw [List.map_append]
    rw [setSeq_append, List.length_map, List.length_range]
    simp only [Prod.mk.injEq]
    exact ⟨rfl, by omega⟩

theorem inputs_flatten_length (nf : Nat → Nat) (val : Nat → Nat → Nat) (n : Nat) :
    (((List.range n).map (fun pi =>
      ((List.range (nf pi)).map (fun f => leBytes 4 (val pi f))).flatten)).flatten).length =
      ((List.range n).map (fun pi => 4 * nf pi)).sum := by
  rw [List.length_flatten, List.map_map]
  congr 1
  apply List.map_congr_left
  intro i _
  simp only [Function.comp]
  exact join_map_leBytes_length 4 (val i) (nf i)

/-- The `inputPerFrame` double loop is the write of the doubly-joined byte
lists, advancing the offset by `4 * numFrames[pi]` per player. -/
theorem foldl_inputs (nf : Nat → Nat) (val : Nat → Nat → Nat) :
    ∀ (n : Nat) (buf : List Nat) (off : Nat),
      (List.range n).foldl
          (fun s pi =>
            (List.range (nf pi)).foldl
              (fun t f => (writeLittleEndian 4 t.1 t.2 (val pi f), t.2 + 4)) s)
          (buf, off) =
        (setSeq buf off
          (((List.range n).map (fun pi =>
            ((List.range (nf pi)).map (fun f => leBytes 4 (val pi f))).flatten)).flatten),
          off + ((List.range n).map (fun pi => 4 * nf pi)).sum) := by
  intro n
  induction n with
  | zero => intro buf off; simp [setSeq]
  | succ n ih =>
    intro buf off
    rw [List.range_succ, List.foldl_append, ih]
    simp only [List.foldl_cons, List.foldl_nil]
    rw [foldl_writeW 4 (val n) (nf n)]
    rw [List.map_append, List.flatten_append]
    simp only [List.map_cons, List.map_nil, List.flatten_cons, List.flatten_nil, List.append_nil]
    rw [setSeq_append]
    rw [inputs_flatten_length nf val n]
    simp only [Prod.mk.injEq, List.map_append, List.sum_append]
    constructor
    · trivial
    · simp
      omega

/-- The size calculation's input-words sum (bounded by `numFrames.size()`)
equals the emitted input-words length (padded with zero lengths). -/
theorem sum_nf_eq (nf : List Nat) :
    ∀ m : Nat, ((List.range m).map (fun i => 4 * nf.getD i 0)).sum =
      ((List.range (min m nf.length)).map (fun i => nf.getD i 0 * 4)).sum := by
  intro m
  induction m with
  | zero => simp
  | succ m ih =>
    by_cases hm : m < nf.length
    · have h1 : min (m + 1) nf.length = min m nf.length + 1 := by omega
      rw [List.range_succ, List.map_append, List.sum_append, ih, h1, List.range_succ,
        List.map_append, List.sum_append]
      have h2 : min m nf.length = m := by omega
      rw [h2]
      simp [Nat.mul_comm]
    · have h1 : min (m + 1) nf.length = min m nf.length := by omega
      rw [List.range_succ, List.map_append, List.sum_append, ih, h1]
      have h2 : nf.getD m 0 = 0 := List.getD_eq_default nf 0 (by omega)
      simp only [List.map_cons, List.map_nil, List.sum_cons, List.sum_nil, h2,
        Nat.mul_zero, Nat.add_zero]

/-- The serialised bytes of a `PlayersConfigurationData` message: header,
`numPlayers` byte, then `maxPlayers` little-endian `u16` from the cycling
table.  (The size calculation allocates `1 + 4*maxPlayers` payload bytes
but the writes use only `1 + 2*maxPlayers`; the final resize trims the
buffer to the bytes written.) -/
theorem serialize_playersConfigurationData_eq (h' : ServerHeader)
    (p : PlayersConfigurationDataPayload) (m : Nat) :
    serializeServerMessage h' (.playersConfigurationData p) m =
      ([h'.type] ++ leBytes 4 h'.sequence) ++ [p.numPlayers] ++
        ((List.range m).map (fun i =>
          leBytes 2 (PlayerConfigValues.getD (i % PlayerConfigValues.length) 0))).flatten := by
  have hsize : calcSize (.playersConfigurationData p) m = 6 + 4 * m := by
    simp only [calcSize]
    omega
  simp only [serializeServerMessage]
  rw [foldl_writeW 2 (fun i => PlayerConfigValues.getD (i % PlayerConfigValues.length) 0) m]
  rw [writeLittleEndian_eq]
  have e1 : (List.replicate (calcSize (.playersConfigurationData p) m) 0).set 0 h'.type =
      setSeq (List.replicate (calcSize (.playersConfigurationData p) m) 0) 0 [h'.type] := rfl
  rw [e1, setSeq_chain (show ([h'.type] : List Nat).length = 1 from rfl)]
  have e2 : ∀ buf : List Nat, buf.set 5 p.numPlayers = setSeq buf 5 [p.numPlayers] :=
    fun _ => rfl
  rw [e2, setSeq_chain (show (([h'.type] ++ leBytes 4 h'.sequence) : List Nat).length = 5 by
    simp [leBytes_length])]
  rw [setSeq_chain (show ((([h'.type] ++ leBytes 4 h'.sequence) ++ [p.numPlayers]) :
      List Nat).length = 6 by simp [leBytes_length])]
  set J := ((List.range m).map (fun i =>
    leBytes 2 (PlayerConfigValues.getD (i % PlayerConfigValues.length) 0))).flatten with hJ
  have hJlen : J.length = 2 * m :=
    join_map_leBytes_length 2 (fun i => PlayerConfigValues.getD (i % PlayerConfigValues.length) 0) m
  set B := (([h'.type] ++ leBytes 4 h'.sequence) ++ [p.numPlayers]) ++ J with hB
  have hBlen : B.length = 6 + 2 * m := by
    simp only [hB, List.length_append, List.length_cons, List.length_nil, leBytes_length,
      List.length_singleton, hJlen]
  have hbuf : (setSeq (List.replicate (calcSize (.playersConfigurationData p) m) 0) 0 B).length =
      6 + 4 * m := by
    rw [setSeq_length, List.length_replicate, hsize]
  have hsplit : setSeq (List.replicate (calcSize (.playersConfigurationData p) m) 0) 0 B =
      B ++ List.replicate (4 * m - 2 * m) 0 := by
    rw [setSeq_eq_of_le B _ 0 (by rw [List.length_replicate, hsize]; omega)]
    rw [List.take_zero, List.nil_append, hsize, Nat.zero_add, hBlen, List.drop_replicate]
    congr 2
    omega
  by_cases hm : m = 0
  · subst hm
    rw [if_neg (by rw [hbuf]; omega)]
    rw [hsplit]
    simp
  · rw [if_pos (by rw [hbuf]; omega)]
    rw [hsplit]
    have : (6 : Nat) + 2 * m = B.length := hBlen.symm
    rw [this, List.take_left]

/-- **C5.**  For every `PlayersConfigurationDataPayload` and `maxPlayers ≥ 1`,
`serializeServerMessage` returns exactly `5 + 1 + 2*maxPlayers` bytes: the
5-byte header, the `numPlayers` byte, then `maxPlayers` little-endian `u16`
values, the `i`-th being `{0, 257, 512, 769}[i % 4]` — independent of the
payload's `configValues` vector and of `numPlayers`. -/
theorem serialize_playersConfigurationData (h' : ServerHeader)
    (p : PlayersConfigurationDataPayload) (m : Nat) (_hm : 1 ≤ m) :
    (serializeServerMessage h' (.playersConfigurationData p) m).length = 5 + 1 + 2 * m ∧
      serializeServerMessage h' (.playersConfigurationData p) m =
        ([h'.type] ++ leBytes 4 h'.sequence) ++ [p.numPlayers] ++
          ((List.range m).map (fun i =>
            [[0, 257, 512, 769].getD (i % 4) 0 % 256,
             [0, 257, 512, 769].getD (i % 4) 0 / 256 % 256])).flatten := by
  have he := serialize_playersConfigurationData_eq h' p m
  have htab : (fun i => leBytes 2 (PlayerConfigValues.getD (i % PlayerConfigValues.length) 0)) =
      (fun i => [[0, 257, 512, 769].getD (i % 4) 0 % 256,
                 [0, 257, 512, 769].getD (i % 4) 0 / 256 % 256]) := by
    funext i
    rw [leBytes_two]
    rfl
  constructor
  · rw [he]
    simp only [List.length_append, List.length_cons, List.length_nil, leBytes_length,
      join_map_leBytes_length 2 (fun i => PlayerConfigValues.getD (i % PlayerConfigValues.length) 0) m]
  · rw [he, htab]

/-- Witness for C5 at `maxPlayers = 2`. -/
theorem serialize_playersConfigurationData_witness :
    (serializeServerMessage ⟨10, 1⟩
      (.playersConfigurationData ⟨2, [7, 7]⟩) 2).length = 5 + 1 + 2 * 2 :=
  (serialize_playersConfigurationData ⟨10, 1⟩ ⟨2, [7, 7]⟩ 2 (by omega)).1

/-- A single `List.set` is a one-byte write sequence. -/
theorem set_eq_setSeq (buf : List Nat) (off v : Nat) :
    buf.set off v = setSeq buf off [v] := rfl

/-- The serialised bytes of a `PlayerInput` message, field by field in wire
order (cf. the spec's bit-exact layout). -/
theorem serialize_playerInput_eq (h' : ServerHeader) (p : PlayerInputPayload) (m : Nat) :
    serializeServerMessage h' (.playerInput p) m =
      (((((((((([h'.type] ++ leBytes 4 h'.sequence) ++ [p.numPlayers]) ++
        ((List.range m).map (fun i => leBytes 4 (p.startFrame.getD i 0))).flatten) ++
        (List.range m).map (fun i => p.numFrames.getD i 0)) ++
        leBytes 2 p.numPredictedOverrides) ++
        leBytes 2 p.numZeroedOverrides) ++
        leBytes 2 (int16ToWire p.ping)) ++
        leBytes 2 (int16ToWire p.packetsLossPercent)) ++
        leBytes 2 (int16ToWire (truncToInt (p.rift * 100)))) ++
        leBytes 4 p.checksumAckFrame) ++
        ((List.range m).map (fun pi =>
          ((List.range (p.numFrames.getD pi 0)).map
            (fun f => leBytes 4 ((p.inputPerFrame.getD pi []).getD f 0))).flatten)).flatten := by
  have lSF : (((List.range m).map (fun i => leBytes 4 (p.startFrame.getD i 0))).flatten).length =
      4 * m := join_map_leBytes_length 4 _ m
  have lNF : ((List.range m).map (fun i => p.numFrames.getD i 0)).length = m := by simp
  have lIN : (((List.range m).map (fun pi =>
      ((List.range (p.numFrames.getD pi 0)).map
        (fun f => leBytes 4 ((p.inputPerFrame.getD pi []).getD f 0))).flatten)).flatten).length =
      ((List.range m).map (fun pi => 4 * p.numFrames.getD pi 0)).sum :=
    inputs_flatten_length (fun pi => p.numFrames.getD pi 0) _ m
  simp only [serializeServerMessage]
  rw [foldl_writeW 4 (fun i => p.startFrame.getD i 0) m]
  rw [foldl_set1 (fun i => p.numFrames.getD i 0) m]
  rw [foldl_inputs (fun pi => p.numFrames.getD pi 0)
    (fun pi f => (p.inputPerFrame.getD pi []).getD f 0) m]
  simp only [writeLittleEndian_eq, set_eq_setSeq]
  rw [setSeq_chain (show ([h'.type] : List Nat).length = 1 from rfl)]
  rw [setSeq_chain (show (([h'.type] ++ leBytes 4 h'.sequence) : List Nat).length = 5 by
    simp [leBytes_length])]
  rw [setSeq_chain (show ((([h'.type] ++ leBytes 4 h'.sequence) ++ [p.numPlayers]) : List Nat).length = 6 by
    simp only [List.length_append, List.length_singleton, leBytes_length, lSF, lNF])]
  rw [setSeq_chain (show (((([h'.type] ++ leBytes 4 h'.sequence) ++ [p.numPlayers]) ++ ((List.range m).map (fun i => leBytes 4 (p.startFrame.getD i 0))).flatten) : List Nat).length = 6 + 4 * m by
    simp only [List.length_append, List.length_singleton, leBytes_length, lSF, lNF])]
  rw [setSeq_chain (show ((((([h'.type] ++ leBytes 4 h'.sequence) ++ [p.numPlayers]) ++ ((List.range m).map (fun i => leBytes 4 (p.startFrame.getD i 0))).flatten) ++ (List.range m).map (fun i => p.numFrames.getD i 0)) : List Nat).length = 6 + 4 * m + m by
    simp only [List.length_append, List.length_singleton, leBytes_length, lSF, lNF])]
  rw [setSeq_chain (show (((((([h'.type] ++ leBytes 4 h'.sequence) ++ [p.numPlayers]) ++ ((List.range m).map (fun i => leBytes 4 (p.startFrame.getD i 0))).flatten) ++ (List.range m).map (fun i => p.numFrames.getD i 0)) ++ leBytes 2 p.numPredictedOverrides) : List Nat).length = 6 + 4 * m + m + 2 by
    simp only [List.length_append, List.length_singleton, leBytes_length, lSF, lNF])]
  rw [setSeq_chain (show ((((((([h'.type] ++ leBytes 4 h'.sequence) ++ [p.numPlayers]) ++ ((List.range m).map (fun i => leBytes 4 (p.startFrame.getD i 0))).flatten) ++ (List.range m).map (fun i => p.numFrames.getD i 0)) ++ leBytes 2 p.numPredictedOverrides) ++ leBytes 2 p.numZeroedOverrides) : List Nat).length = 6 + 4 * m + m + 2 + 2 by
    simp only [List.length_append, List.length_singleton, leBytes_length, lSF, lNF])]
  rw [setSeq_chain (show (((((((([h'.type] ++ leBytes 4 h'.sequence) ++ [p.numPlayers]) ++ ((List.range m).map (fun i => leBytes 4 (p.startFrame.getD i 0))).flatten) ++ (List.range m).map (fun i => p.numFrames.getD i 0)) ++ leBytes 2 p.numPredictedOverrides) ++ leBytes 2 p.numZeroedOverrides) ++ leBytes 2 (int16ToWire p.ping)) : List Nat).length = 6 + 4 * m + m + 2 + 2 + 2 by
    simp only [List.length_append, List.length_singleton, leBytes_length, lSF, lNF])]
  rw [setSeq_chain (show ((((((((([h'.type] ++ leBytes 4 h'.sequence) ++ [p.numPlayers]) ++ ((List.range m).map (fun i => leBytes 4 (p.startFrame.getD i 0))).flatten) ++ (List.range m).map (fun i => p.numFrames.getD i 0)) ++ leBytes 2 p.numPredictedOverrides) ++ leBytes 2 p.numZeroedOverrides) ++ leBytes 2 (int16ToWire p.ping)) ++ leBytes 2 (int16ToWire p.packetsLossPercent)) : List Nat).length = 6 + 4 * m + m + 2 + 2 + 2 + 2 by
    simp only [List.length_append, List.length_singleton, leBytes_length, lSF, lNF])]
  rw [setSeq_chain (show (((((((((([h'.type] ++ leBytes 4 h'.sequence) ++ [p.numPlayers]) ++ ((List.range m).map (fun i => leBytes 4 (p.startFrame.getD i 0))).flatten) ++ (List.range m).map (fun i => p.numFrames.getD i 0)) ++ leBytes 2 p.numPredictedOverrides) ++ leBytes 2 p.numZeroedOverrides) ++ leBytes 2 (int16ToWire p.ping)) ++ leBytes 2 (int16ToWire p.packetsLossPercent)) ++ leBytes 2 (int16ToWire (truncToInt (p.rift * 100)))) : List Nat).length = 6 + 4 * m + m + 2 + 2 + 2 + 2 + 2 by
    simp only [List.length_append, List.length_singleton, leBytes_length, lSF, lNF])]
  rw [setSeq_chain (show ((((((((((([h'.type] ++ leBytes 4 h'.sequence) ++ [p.numPlayers]) ++ ((List.range m).map (fun i => leBytes 4 (p.startFrame.getD i 0))).flatten) ++ (List.range m).map (fun i => p.numFrames.getD i 0)) ++ leBytes 2 p.numPredictedOverrides) ++ leBytes 2 p.numZeroedOverrides) ++ leBytes 2 (int16ToWire p.ping)) ++ leBytes 2 (int16ToWire p.packetsLossPercent)) ++ leBytes 2 (int16ToWire (truncToInt (p.rift * 100)))) ++ leBytes 4 p.checksumAckFrame) : List Nat).length = 6 + 4 * m + m + 2 + 2 + 2 + 2 + 2 + 4 by
    simp only [List.length_append, List.length_singleton, leBytes_length, lSF, lNF])]
  set BFull := ((((((((((([h'.type] ++ leBytes 4 h'.sequence) ++ [p.numPlayers]) ++ ((List.range m).map (fun i => leBytes 4 (p.startFrame.getD i 0))).flatten) ++ (List.range m).map (fun i => p.numFrames.getD i 0)) ++ leBytes 2 p.numPredictedOverrides) ++ leBytes 2 p.numZeroedOverrides) ++ leBytes 2 (int16ToWire p.ping)) ++ leBytes 2 (int16ToWire p.packetsLossPercent)) ++ leBytes 2 (int16ToWire (truncToInt (p.rift * 100)))) ++ leBytes 4 p.checksumAckFrame) ++
      ((List.range m).map (fun pi =>
        ((List.range (p.numFrames.getD pi 0)).map
          (fun f => leBytes 4 ((p.inputPerFrame.getD pi []).getD f 0))).flatten)).flatten)
    with hBFull
  have hBlen : BFull.length =
      6 + 4 * m + m + 2 + 2 + 2 + 2 + 2 + 4 +
        ((List.range m).map (fun pi => 4 * p.numFrames.getD pi 0)).sum := by
    simp only [hBFull, List.length_append, List.length_singleton, leBytes_length, lSF, lNF, lIN]
  have hSZ : calcSize (.playerInput p) m =
      6 + 4 * m + m + 2 + 2 + 2 + 2 + 2 + 4 +
        ((List.range m).map (fun pi => 4 * p.numFrames.getD pi 0)).sum := by
    simp only [calcSize]
    rw [sum_nf_eq p.numFrames m]
    omega
  rw [if_neg (by rw [setSeq_length, List.length_replicate, hSZ]; omega)]
  rw [setSeq_eq_of_le BFull _ 0 (by rw [List.length_replicate, hSZ, hBlen]; omega)]
  rw [List.take_zero, List.nil_append, Nat.zero_add, hBlen, hSZ, List.drop_replicate,
    Nat.sub_self, List.replicate_zero, List.append_nil]


/-- The rift value of the concrete counterexample: `1/64 * 100 = 25/16`
truncates toward zero to `1`. -/
theorem truncToInt_rift_example : truncToInt ((1 : ℚ)/64 * 100) = 1 := by
  have h1 : ((1 : ℚ)/64 * 100).num = 25 := by norm_num
  have h2 : ((1 : ℚ)/64 * 100).den = 16 := by norm_num
  rw [truncToInt, h1, h2]
  decide

/-- **C4 (amended).**  For every `PlayerInputPayload` and `maxPlayers`,
`serializeServerMessage` writes the rift wire field (the 2 bytes at offset
`14 + 5*maxPlayers`) as the little-endian `int16` equal to `rift * 100`
truncated toward zero (the C++ `static_cast<int16_t>`), not rounded; the
hypotheses confine the value to `int16` range, where the conversion is
defined. -/
theorem serialize_playerInput_rift (h' : ServerHeader) (p : PlayerInputPayload) (m : Nat)
    (_hlo : -32768 ≤ truncToInt (p.rift * 100)) (_hhi : truncToInt (p.rift * 100) < 32768) :
    ((serializeServerMessage h' (.playerInput p) m).drop (14 + 5 * m)).take 2 =
      [int16ToWire (truncToInt (p.rift * 100)) % 256,
       int16ToWire (truncToInt (p.rift * 100)) / 256 % 256] := by
  have lSF : (((List.range m).map (fun i => leBytes 4 (p.startFrame.getD i 0))).flatten).length =
      4 * m := join_map_leBytes_length 4 _ m
  have lNF : ((List.range m).map (fun i => p.numFrames.getD i 0)).length = m := by simp
  rw [serialize_playerInput_eq]
  rw [List.append_assoc (((((((((([h'.type] ++ leBytes 4 h'.sequence) ++ [p.numPlayers]) ++ ((List.range m).map (fun i => leBytes 4 (p.startFrame.getD i 0))).flatten) ++ (List.range m).map (fun i => p.numFrames.getD i 0)) ++ leBytes 2 p.numPredictedOverrides) ++ leBytes 2 p.numZeroedOverrides) ++ leBytes 2 (int16ToWire p.ping)) ++ leBytes 2 (int16ToWire p.packetsLossPercent)) ++ leBytes 2 (int16ToWire (truncToInt (p.rift * 100))))) (leBytes 4 p.checksumAckFrame) (((List.range m).map (fun pi =>
        ((List.range (p.numFrames.getD pi 0)).map
          (fun f => leBytes 4 ((p.inputPerFrame.getD pi []).getD f 0))).flatten)).flatten)]
  rw [List.append_assoc ((((((((([h'.type] ++ leBytes 4 h'.sequence) ++ [p.numPlayers]) ++ ((List.range m).map (fun i => leBytes 4 (p.startFrame.getD i 0))).flatten) ++ (List.range m).map (fun i => p.numFrames.getD i 0)) ++ leBytes 2 p.numPredictedOverrides) ++ leBytes 2 p.numZeroedOverrides) ++ leBytes 2 (int16ToWire p.ping)) ++ leBytes 2 (int16ToWire p.packetsLossPercent))) (leBytes 2 (int16ToWire (truncToInt (p.rift * 100))))]
  rw [List.drop_left' (show ((((((((([h'.type] ++ leBytes 4 h'.sequence) ++ [p.numPlayers]) ++ ((List.range m).map (fun i => leBytes 4 (p.startFrame.getD i 0))).flatten) ++ (List.range m).map (fun i => p.numFrames.getD i 0)) ++ leBytes 2 p.numPredictedOverrides) ++ leBytes 2 p.numZeroedOverrides) ++ leBytes 2 (int16ToWire p.ping)) ++ leBytes 2 (int16ToWire p.packetsLossPercent)) : List Nat).length = 14 + 5 * m by
    simp only [List.length_append, List.length_singleton, leBytes_length, lSF, lNF]
    omega)]
  rw [List.take_left' (leBytes_length 2 _)]
  exact leBytes_two _

/-- **C4 (counterexample).**  The claim says the rift wire field is the
`int16` `round(rift * 100)`.  At `rift = 1/64` (exactly representable in
`float`, as is `rift * 100 = 1.5625`, so the C++ float evaluation is exact)
the code's `static_cast<int16_t>` truncates `1.5625` to `1`, while `round`
gives `2`: the serialised bytes differ from the claimed ones. -/
theorem serialize_playerInput_rift_counterexample :
    ¬ (((serializeServerMessage ⟨4, 0⟩
        (.playerInput ⟨0, [], [], 0, 0, 0, 0, (1 : ℚ)/64, 0, []⟩) 1).drop (14 + 5 * 1)).take 2 =
      [int16ToWire (round (((1 : ℚ)/64) * 100)) % 256,
       int16ToWire (round (((1 : ℚ)/64) * 100)) / 256 % 256]) := by
  intro hclaim
  have hround : round (((1 : ℚ)/64) * 100) = 2 := by
    norm_num [round_eq]
  rw [hround, serialize_playerInput_eq] at hclaim
  dsimp only at hclaim
  rw [truncToInt_rift_example] at hclaim
  exact absurd hclaim (by decide)

/-- Witness for the amended C4 at `rift = 1/64`, `maxPlayers = 1`: the wire
bytes are the truncated value `1`, little-endian. -/
theorem serialize_playerInput_rift_witness :
    ((serializeServerMessage ⟨4, 0⟩
        (.playerInput ⟨0, [], [], 0, 0, 0, 0, (1 : ℚ)/64, 0, []⟩) 1).drop (14 + 5 * 1)).take 2 =
      [int16ToWire (truncToInt (((1 : ℚ)/64) * 100)) % 256,
       int16ToWire (truncToInt (((1 : ℚ)/64) * 100)) / 256 % 256] :=
  serialize_playerInput_rift ⟨4, 0⟩ ⟨0, [], [], 0, 0, 0, 0, (1 : ℚ)/64, 0, []⟩ 1
    (by dsimp only; rw [truncToInt_rift_example]; decide)
    (by dsimp only; rw [truncToInt_rift_example]; decide)

end Rollback
